import Mathlib

/-!
# Verification of the DJ-FX audio-analysis and mix-assembly pipeline

A shallow embedding of the algorithmic core of `src/backend/server.py`
(`TrackFinder.analyze_audio` and `MixCreator.create_mix`, plus the
`POST /api/mixes` endpoint), with theorems checking the natural-language
specification against it.

Conventions:
* floats are modelled as rationals (`ℚ`);
* numpy / scipy / librosa / pydub library calls that the source leans on are
  embedded by their documented semantics (each definition's doc comment says
  which call it models);
* exceptions are modelled with `Except` / `Option`.
-/

namespace DJFX

/-- `np.max` over the non-negative arrays occurring in `analyze_audio`,
folded from `0` (all RMS values are `≥ 0`, so this agrees with `np.max`
on every non-empty such array). -/
def maxList (l : List ℚ) : ℚ := l.foldr max 0

/-- `np.mean` of an array: sum divided by length. -/
def mean (l : List ℚ) : ℚ := l.sum / l.length

/-- Sum of `r.getD j 0` over `j ∈ [a, b)`; entries outside `r` contribute `0`.
Used to express the moving-average convolution windows. -/
def isum (r : List ℚ) (a b : ℕ) : ℚ := ∑ j ∈ Finset.Ico a b, r.getD j 0

/-- One value of the full convolution `np.convolve(r, np.ones(10)/10)`:
the width-10 window of `r` ending at index `k` (indices outside `r`
contribute `0`), averaged. -/
def convFull (r : List ℚ) (k : ℕ) : ℚ := isum r (k - 9) (min (k + 1) r.length) / 10

/-- `np.convolve(r, np.ones(10)/10, mode='same')` (server.py line 179):
numpy's `same` mode returns the centered `max(len(r), 10)` entries of the
full convolution (which has length `len(r) + 9`), i.e. the slice starting
at `(min(len(r), 10) - 1) // 2`. -/
def convSame (r : List ℚ) : List ℚ :=
  (List.range (max r.length 10)).map fun i => convFull r (i + (min r.length 10 - 1) / 2)

/-- Walk `rest` (the entries of the series from index `i` on) and return the
index of the first entry `≠ v`, or `i + rest.length` when all remaining
entries equal `v`. -/
def scanEq (v : ℚ) : List ℚ → ℕ → ℕ
  | [], i => i
  | a :: rest, i => if a = v then scanEq v rest (i + 1) else i

/-- The plateau scan of scipy's `_local_maxima_1d`: the first index `j > l`
with `x[j] ≠ x[l]`, or `x.length` if the plateau of values equal to `x[l]`
reaches the end of `x`. -/
def plateauEnd (x : List ℚ) (l : ℕ) : ℕ := scanEq (x.getD l 0) (x.drop (l + 1)) (l + 1)

/-- `l` is the left edge of a local-maximum plateau of `x` in the sense of
scipy's `_local_maxima_1d`: `l ≥ 1`, `x[l-1] < x[l]`, the plateau starting at
`l` ends at some `j ≤ x.length - 1` (so the sample closing the plateau exists;
scipy's scan stops at the last index), and `x[j] < x[l]`. -/
def IsLeftEdge (x : List ℚ) (l : ℕ) : Prop :=
  1 ≤ l ∧ plateauEnd x l ≤ x.length - 1 ∧
    x.getD (l - 1) 0 < x.getD l 0 ∧ x.getD (plateauEnd x l) 0 < x.getD l 0

instance (x : List ℚ) (l : ℕ) : Decidable (IsLeftEdge x l) := by
  unfold IsLeftEdge; infer_instance

/-- scipy `_local_maxima_1d`: the midpoints `(left_edge + right_edge) / 2`
of all local-maximum plateaus, in increasing order
(`right_edge = plateauEnd x l - 1`). -/
def localMaxima (x : List ℚ) : List ℕ :=
  (List.range x.length).filterMap fun l =>
    if IsLeftEdge x l then some ((l + (plateauEnd x l - 1)) / 2) else none

/-- `find_peaks`' scalar height condition: keep the peaks whose value is at
least `hmin` (scipy keeps `x[p] >= hmin`, inclusively). -/
def heightFilter (x : List ℚ) (hmin : ℚ) (ps : List ℕ) : List ℕ :=
  ps.filter fun p => decide (hmin ≤ x.getD p 0)

/-- One step of scipy's `_select_by_peak_distance`: if the peak at list
position `j` is still kept, drop every other peak strictly closer than
`dist` to it. -/
def killClose (ps : List ℕ) (dist : ℕ) (keep : List Bool) (j : ℕ) : List Bool :=
  if keep.getD j false then
    keep.mapIdx fun k b =>
      if k ≠ j ∧ max (ps.getD k 0) (ps.getD j 0) - min (ps.getD k 0) (ps.getD j 0) < dist
      then false else b
  else keep

/-- The order in which scipy's `_select_by_peak_distance` visits the peaks:
list positions sorted by decreasing priority (= peak height).  Ties between
exactly equal heights are visited lower-position-first here; scipy leaves the
tie order to `np.argsort`, and no statement below depends on it. -/
def priorityOrder (prio : List ℚ) : List ℕ :=
  List.insertionSort (fun a b => prio.getD b 0 ≤ prio.getD a 0) (List.range prio.length)

/-- scipy `_select_by_peak_distance`: visit the peaks from highest to lowest;
each still-kept peak eliminates every other peak strictly closer than `dist`;
return the kept peaks in their original ascending order. -/
def distanceFilter (x : List ℚ) (dist : ℕ) (ps : List ℕ) : List ℕ :=
  let keep := (priorityOrder (ps.map fun p => x.getD p 0)).foldl
    (killClose ps dist) (List.replicate ps.length true)
  (ps.enum.filter fun pe => keep.getD pe.1 false).map Prod.snd

/-- `scipy.signal.find_peaks(x, height=hmin, distance=dist)` for a scalar
height and an integral distance: local maxima, filtered by height, then by
distance (scipy applies the height condition before the distance condition). -/
def find_peaks (x : List ℚ) (hmin : ℚ) (dist : ℕ) : List ℕ :=
  distanceFilter x dist (heightFilter x hmin (localMaxima x))

/-- One entry of `track.highlights` (server.py lines 192-197): the dict
`{"start": …, "end": …, "peak_time": …, "intensity": …}`; the `end` key is
called `stop` here because `end` is a Lean keyword. -/
structure Highlight where
  start : ℚ
  stop : ℚ
  peak_time : ℚ
  intensity : ℚ
deriving DecidableEq, Repr

/-- `librosa.frames_to_time(frame, sr=sr, hop_length=hop) = frame * hop / sr`. -/
def frames_to_time (frame hop sr : ℕ) : ℚ := (frame * hop : ℚ) / sr

/-- The hop length fixed at server.py line 170. -/
def hop_length : ℕ := 1024

/-- The highlight dict built for one peak at server.py lines 186-197: a
window of nominal half-width 10 s around
`time_point = librosa.frames_to_time(peak)`, clamped to `[0, duration]`,
with `intensity = smoothed_rms[peak]` (the smoothing of the *raw* RMS). -/
def peakHighlight (smoothed : List ℚ) (duration : ℚ) (sr p : ℕ) : Highlight :=
  let t := frames_to_time p hop_length sr
  { start := max 0 (t - 10), stop := min duration (t + 10),
    peak_time := t, intensity := smoothed.getD p 0 }

/-- The body of `TrackFinder.analyze_audio` (server.py lines 164-203) after the
librosa decoding calls: the inputs are the RMS frame series
`rms = librosa.feature.rms(y=y, frame_length=2048, hop_length=1024).flatten()`,
the decoded signal length `lenY = len(y)` and the native sample rate `sr`;
`librosa.get_duration(y, sr) = len(y) / sr`.  `Except` models the exceptions
that can escape the body and be caught at line 204: `np.max` raises on an
empty array (line 175), and `scipy.signal.find_peaks` raises when
`distance = sr // 1024 * 5` is smaller than 1 (line 182). -/
def analyzeBody (rms : List ℚ) (lenY sr : ℕ) : Except Unit (List ℚ × List Highlight) :=
  let duration : ℚ := (lenY : ℚ) / sr
  if rms.isEmpty then .error () else
  let waveform_data := if 0 < maxList rms then rms.map (· / maxList rms) else rms
  let smoothed := convSame rms
  let dist := sr / hop_length * 5
  if dist < 1 then .error () else
  let peaks := find_peaks smoothed (mean smoothed * (3 / 2)) dist
  let highlights := peaks.map (peakHighlight smoothed duration sr)
  let sorted := List.insertionSort (fun a b : Highlight => b.intensity ≤ a.intensity) highlights
  .ok (waveform_data, sorted.take 3)

/-- `TrackFinder.analyze_audio` with its `try/except` (lines 162-207): the
input is `some (rms, lenY, sr)` when `librosa.load` and `librosa.feature.rms`
succeed, `none` when decoding the file raises; every exception from the body
is caught at line 204 and mapped to empty `waveform_data` / `highlights`. -/
def analyze_audio (input : Option (List ℚ × ℕ × ℕ)) : List ℚ × List Highlight :=
  match input with
  | none => ([], [])
  | some (rms, lenY, sr) =>
    match analyzeBody rms lenY sr with
    | .error _ => ([], [])
    | .ok res => res

/-- The analysis-related mutable fields of a `Track` (server.py lines 60-61);
`none` models a pydantic field still holding `None`. -/
structure TrackFields where
  waveform_data : Option (List ℚ)
  highlights : Option (List Highlight)
deriving Repr

/-- Running `analyze_audio` over a track record: both fields are assigned on
every path (lines 175/201 on success, lines 206-207 in the `except` branch),
so neither is ever left `None` by the analysis. -/
def runAnalysis (input : Option (List ℚ × ℕ × ℕ)) (t : TrackFields) : TrackFields :=
  let r := analyze_audio input
  { t with waveform_data := some r.1, highlights := some r.2 }

/-! ## MixCreator and the `/api/mixes` endpoint -/

/-- The status enumeration of a `Mix` (server.py line 71). -/
inductive MixStatus where
  | pending
  | processing
  | completed
  | failed
deriving DecidableEq, Repr

/-- The fields of a `Mix` record that the mix pipeline writes
(server.py lines 64-72, 276-278, 289). -/
structure MixState where
  duration : Option ℚ
  has_file : Bool
  status : MixStatus
deriving DecidableEq, Repr

/-- The per-track data `MixCreator.create_mix` reads: whether
`track.local_path` is set and the file exists (line 230), whether
`AudioSegment.from_file(track.local_path)` succeeds (line 235 — its failure
is caught by the inner `except` at line 268 and the track skipped), the
decoded audio length `len(audio)` in milliseconds, and `track.highlights`. -/
structure MixTrack where
  readable : Bool
  decode_ok : Bool
  audio_len : ℕ
  highlights : List Highlight
deriving DecidableEq, Repr

/-- The sort key of server.py lines 218-219: the mean highlight intensity,
or `0` for a track with an empty (or `None`-like empty) highlight list. -/
def trackKey (t : MixTrack) : ℚ :=
  if t.highlights.isEmpty then 0 else mean (t.highlights.map Highlight.intensity)

/-- Lines 218-220: `tracks.sort(key=…, reverse=True)` — Python's stable sort,
descending by `trackKey`. -/
def sortTracks (ts : List MixTrack) : List MixTrack :=
  List.insertionSort (fun a b => trackKey b ≤ trackKey a) ts

/-- The excerpt bounds in ms selected at lines 238-254: for a track with
highlights, the top highlight's window
`[int(start*1000), min(int(end*1000), len(audio)))` — pydub clamps the slice
start at `len(audio)`, and `int` on the non-negative times produced by the
analysis is `Int.floor` (`toNat` of it); for an empty highlight list, the
fallback window of nominal half-width 15000 ms around the midpoint
`len(audio) // 2`, clamped to the track (`max(0, ·)` is `ℕ` truncated
subtraction). -/
def selectExcerpt (audioLen : ℕ) : List Highlight → ℕ × ℕ
  | h :: _ =>
    let s := (Int.floor (h.start * 1000)).toNat
    let e := min (Int.floor (h.stop * 1000)).toNat audioLen
    (min s audioLen, e)
  | [] => (audioLen / 2 - 15000, min audioLen (audioLen / 2 + 15000))

/-- The length in ms of the excerpt pydub extracts at lines 248/254:
`len(audio[s:e]) = max(0, min(e, L) - min(s, L))`, which with the clamped
bounds of `selectExcerpt` is truncated subtraction `e - s`; the fades of
line 257 do not change the length. -/
def segLen (t : MixTrack) : ℕ :=
  (selectExcerpt t.audio_len t.highlights).2 - (selectExcerpt t.audio_len t.highlights).1

/-- One iteration of the loop at lines 229-270, acting on the state
`(len(final_mix), current_position)` (both in ms, the position as a possibly
negative integer).  Unreadable tracks (line 230) and tracks whose decoding
throws (line 268) are skipped without touching the state.  The buffer length
uses the pydub fact that `AudioSegment.overlay` never extends the segment it
is called on — its result always has `len(self)`, overlaid audio reaching
past the end is truncated — so only the `i == 0` branch (line 265,
`final_mix += segment`) grows the buffer, while the `i > 0` branch
(lines 262-263) leaves `len(final_mix)` unchanged and only moves the cursor
by `len(segment) - 2000`. -/
def mixStep (st : ℕ × ℤ) (it : ℕ × MixTrack) : ℕ × ℤ :=
  let t := it.2
  if !t.readable then st
  else if !t.decode_ok then st
  else if it.1 = 0 then (st.1 + segLen t, st.2 + segLen t)
  else (st.1, st.2 + segLen t - 2000)

/-- Lines 217-270 of `MixCreator.create_mix`: sort the tracks by descending
mean highlight intensity, then run the mixing loop over the sorted,
`enumerate`-indexed list starting from the empty buffer; the result is
`(len(final_mix), current_position)` in ms. -/
def mixLoop (ts : List MixTrack) : ℕ × ℤ :=
  ((sortTracks ts).enum).foldl mixStep (0, 0)

/-- `MixCreator.create_mix` (lines 214-294).  `exportOk` models whether
`final_mix.export` (line 273) succeeds.  On success the mix gets its file
path, the duration `len(final_mix) / 1000` in seconds and status
`completed` (lines 276-278); any exception is caught at line 287 and only
the status is updated, to `failed` (lines 289-293). -/
def create_mix (mix : MixState) (ts : List MixTrack) (exportOk : Bool) : MixState :=
  if exportOk then
    { duration := some ((mixLoop ts).1 / 1000), has_file := true, status := .completed }
  else
    { mix with status := .failed }

/-- The `Mix` record as built by the `POST /api/mixes` endpoint (server.py
lines 392-397): after searching for and downloading the tracks, the record
is created directly with `status="processing"` and no duration or file. -/
def endpoint_create_mix : MixState :=
  { duration := none, has_file := false, status := .processing }

/-- The `status` default declared on the `Mix` pydantic model (line 71);
the endpoint overrides it (line 396), so no endpoint-created mix ever
carries it. -/
def mixModelDefaultStatus : MixStatus := .pending

/-- The successive values taken by `mix.status` for a mix created by the
endpoint: `processing` at record creation (line 396), then the terminal
status set by the background `create_mix` task (line 401). -/
def mixStatusTrace (ts : List MixTrack) (exportOk : Bool) : List MixStatus :=
  [endpoint_create_mix.status, (create_mix endpoint_create_mix ts exportOk).status]

/-- Modelled from the spec's words, for comparison in C4 only: the
moving-average smoothing of the *normalized* envelope ("`intensity` is the
smoothed envelope value at the peak frame", where the envelope's "values are
normalized into [0, 1] by dividing by the maximum observed value"). -/
def specSmoothedNormalizedEnvelope (rms : List ℚ) : List ℚ :=
  convSame (if 0 < maxList rms then rms.map (· / maxList rms) else rms)

/-! ## Concrete inputs used by witnesses and counterexamples -/

/-- A 16-frame RMS series with a single spiked frame of RMS value 20 at
frame 7 (all other frames silent). -/
def spikeRms : List ℚ := (List.range 16).map fun i => if i = 7 then 20 else 0

/-- The single highlight `analyze_audio` produces on `spikeRms` at
`lenY = 15360`, `sr = 1024`. -/
def hlSpike : Highlight := { start := 0, stop := 15, peak_time := 7, intensity := 2 }

/-- A highlight spanning `[0 s, 20 s]` with intensity 2. -/
def hlA : Highlight := { start := 0, stop := 20, peak_time := 10, intensity := 2 }

/-- A highlight spanning `[0 s, 20 s]` with intensity 1. -/
def hlB : Highlight := { start := 0, stop := 20, peak_time := 10, intensity := 1 }

/-- A readable, decodable 60 s track whose top highlight selects a 20 s excerpt. -/
def trkA : MixTrack :=
  { readable := true, decode_ok := true, audio_len := 60000, highlights := [hlA] }

/-- A second readable, decodable 60 s track with a 20 s excerpt. -/
def trkB : MixTrack :=
  { readable := true, decode_ok := true, audio_len := 60000, highlights := [hlB] }

/-- A track whose local audio path is missing or unreadable (line 230 skips it);
its high mean intensity places it first in the assembler's ordering. -/
def trkBad : MixTrack :=
  { readable := false, decode_ok := true, audio_len := 60000, highlights := [hlA] }

/-- A readable, decodable 60 s track with an empty highlight set (fallback
excerpt of 30 s). -/
def trkFall : MixTrack :=
  { readable := true, decode_ok := true, audio_len := 60000, highlights := [] }

/-! ## Helper lemmas: `getD`, `maxList`, `mean`, `isum` -/

lemma getD_nonneg {r : List ℚ} (hr : ∀ v ∈ r, 0 ≤ v) (j : ℕ) : 0 ≤ r.getD j 0 := by
  rcases lt_or_le j r.length with hj | hj
  · rw [List.getD_eq_getElem?_getD, List.getElem?_eq_getElem hj]
    exact hr _ (List.getElem_mem hj)
  · rw [List.getD_eq_getElem?_getD, List.getElem?_eq_none hj]
    exact le_refl 0

lemma le_maxList {r : List ℚ} {v : ℚ} (hv : v ∈ r) : v ≤ maxList r := by
  induction r with
  | nil => cases hv
  | cons a t ih =>
    rcases List.mem_cons.mp hv with rfl | hv
    · exact le_max_left _ _
    · exact (ih hv).trans (le_max_right _ _)

lemma maxList_nonneg (r : List ℚ) : 0 ≤ maxList r := by
  induction r with
  | nil => exact le_refl 0
  | cons a t ih => exact ih.trans (le_max_right _ _)

lemma getD_le_maxList {r : List ℚ} (_hr : ∀ v ∈ r, 0 ≤ v) (j : ℕ) :
    r.getD j 0 ≤ maxList r := by
  rcases lt_or_le j r.length with hj | hj
  · rw [List.getD_eq_getElem?_getD, List.getElem?_eq_getElem hj]
    exact le_maxList (List.getElem_mem hj)
  · rw [List.getD_eq_getElem?_getD, List.getElem?_eq_none hj]
    exact le_trans (le_refl 0) (maxList_nonneg r)

lemma maxList_pos {r : List ℚ} {v : ℚ} (hv : v ∈ r) (h0 : 0 < v) : 0 < maxList r :=
  h0.trans_le (le_maxList hv)

lemma maxList_map_div {r : List ℚ} {m : ℚ} (hm : 0 ≤ m) :
    maxList (r.map (· / m)) = maxList r / m := by
  induction r with
  | nil => simp [maxList]
  | cons a t ih =>
    simp only [List.map_cons, maxList, List.foldr_cons] at *
    rw [ih, max_div_div_right hm]

lemma isum_nonneg {r : List ℚ} (hr : ∀ v ∈ r, 0 ≤ v) (a b : ℕ) : 0 ≤ isum r a b :=
  Finset.sum_nonneg fun j _ => getD_nonneg hr j

lemma isum_mono {r : List ℚ} (hr : ∀ v ∈ r, 0 ≤ v) {a a' b b' : ℕ}
    (ha : a ≤ a') (hb : b' ≤ b) : isum r a' b' ≤ isum r a b :=
  Finset.sum_le_sum_of_subset_of_nonneg (Finset.Ico_subset_Ico ha hb)
    fun j _ _ => getD_nonneg hr j

lemma isum_const {r : List ℚ} {P : ℚ} {a b : ℕ}
    (hc : ∀ j, a ≤ j → j < b → r.getD j 0 = P) : isum r a b = (b - a : ℕ) * P := by
  unfold isum
  rw [Finset.sum_congr rfl fun j hj =>
    hc j (Finset.mem_Ico.mp hj).1 (Finset.mem_Ico.mp hj).2]
  rw [Finset.sum_const, Nat.card_Ico, nsmul_eq_mul]

lemma isum_le_card_mul_max {r : List ℚ} (hr : ∀ v ∈ r, 0 ≤ v) (a b : ℕ) :
    isum r a b ≤ (b - a : ℕ) * maxList r := by
  calc isum r a b ≤ (Finset.Ico a b).card • maxList r :=
        Finset.sum_le_card_nsmul _ _ _ fun j _ => getD_le_maxList hr j
    _ = (b - a : ℕ) * maxList r := by rw [Nat.card_Ico, nsmul_eq_mul]

lemma sum_eq_isum (x : List ℚ) : x.sum = isum x 0 x.length := by
  induction x with
  | nil => simp [isum]
  | cons a t ih =>
    simp only [List.sum_cons, List.length_cons, isum, ← Finset.range_eq_Ico] at *
    rw [Finset.sum_range_succ' (fun j => (a :: t).getD j 0) t.length]
    simp only [List.getD_cons_succ, List.getD_cons_zero]
    rw [← ih]; ring

lemma isum_sub_interval {x : List ℚ} (hx : ∀ v ∈ x, 0 ≤ v) {a b : ℕ}
    (hb : b ≤ x.length) : isum x a b ≤ x.sum := by
  rw [sum_eq_isum]
  exact isum_mono hx (Nat.zero_le a) hb

/-! ## Helper lemmas: `convFull`, `convSame` -/

lemma convFull_nonneg {r : List ℚ} (hr : ∀ v ∈ r, 0 ≤ v) (k : ℕ) : 0 ≤ convFull r k :=
  div_nonneg (isum_nonneg hr _ _) (by norm_num)

lemma convFull_le_maxList {r : List ℚ} (hr : ∀ v ∈ r, 0 ≤ v) (k : ℕ) :
    convFull r k ≤ maxList r := by
  unfold convFull
  rw [div_le_iff₀ (by norm_num : (0:ℚ) < 10)]
  calc isum r (k - 9) (min (k + 1) r.length)
      ≤ (min (k + 1) r.length - (k - 9) : ℕ) * maxList r := isum_le_card_mul_max hr _ _
    _ ≤ 10 * maxList r := by
        apply mul_le_mul_of_nonneg_right _ (maxList_nonneg r)
        have : min (k + 1) r.length - (k - 9) ≤ 10 := by omega
        exact_mod_cast Nat.cast_le.mpr this
    _ = maxList r * 10 := by ring

/-- An increase of the full convolution from `k` to `k + 1` is only possible
while the window is still gaining entries of `r`, i.e. while `k + 1 < r.length`. -/
lemma convFull_increase {r : List ℚ} (hr : ∀ v ∈ r, 0 ≤ v) {k : ℕ}
    (h : convFull r k < convFull r (k + 1)) : k + 1 < r.length := by
  by_contra hk
  push_neg at hk
  have hmin : min (k + 1 + 1) r.length = min (k + 1) r.length := by omega
  have : convFull r (k + 1) ≤ convFull r k := by
    unfold convFull
    apply div_le_div_of_nonneg_right _ (by norm_num)
    · rw [hmin]
      exact isum_mono hr (by omega) le_rfl
  exact absurd h (not_lt.mpr this)

/-- A decrease of the full convolution from `k` to `k + 1` is only possible
once the window starts losing entries of `r`, i.e. once `9 ≤ k`. -/
lemma convFull_decrease {r : List ℚ} (hr : ∀ v ∈ r, 0 ≤ v) {k : ℕ}
    (h : convFull r (k + 1) < convFull r k) : 9 ≤ k := by
  by_contra hk
  push_neg at hk
  have hsub : k - 9 = 0 ∧ k + 1 - 9 = 0 := by omega
  have : convFull r k ≤ convFull r (k + 1) := by
    unfold convFull
    apply div_le_div_of_nonneg_right _ (by norm_num)
    · rw [hsub.1, hsub.2]
      exact isum_mono hr le_rfl (by omega)
  exact absurd h (not_lt.mpr this)

lemma convSame_length (r : List ℚ) : (convSame r).length = max r.length 10 := by
  simp [convSame]

lemma convSame_getD {r : List ℚ} {i : ℕ} (hi : i < max r.length 10) :
    (convSame r).getD i 0 = convFull r (i + (min r.length 10 - 1) / 2) := by
  unfold convSame
  rw [List.getD_eq_getElem?_getD, List.getElem?_map, List.getElem?_range hi]
  rfl

lemma convSame_nonneg {r : List ℚ} (hr : ∀ v ∈ r, 0 ≤ v) :
    ∀ v ∈ convSame r, 0 ≤ v := by
  intro v hv
  obtain ⟨i, _, rfl⟩ := List.mem_map.mp hv
  exact convFull_nonneg hr _

/-! ## Helper lemmas: plateaus and `find_peaks` membership -/

lemma scanEq_ge (v : ℚ) (rest : List ℚ) (i : ℕ) : i ≤ scanEq v rest i := by
  induction rest generalizing i with
  | nil => exact le_refl i
  | cons a t ih =>
    unfold scanEq
    split
    · exact (Nat.le_succ i).trans (ih (i + 1))
    · exact le_refl i

lemma scanEq_le (v : ℚ) (rest : List ℚ) (i : ℕ) : scanEq v rest i ≤ i + rest.length := by
  induction rest generalizing i with
  | nil => simp [scanEq]
  | cons a t ih =>
    unfold scanEq
    split
    · exact (ih (i + 1)).trans (by simp; omega)
    · simp

lemma scanEq_getD_eq (v : ℚ) (rest : List ℚ) (i : ℕ) :
    ∀ k, i ≤ k → k < scanEq v rest i → rest.getD (k - i) 0 = v := by
  induction rest generalizing i with
  | nil => intro k hik hk; exact absurd (hik.trans_lt hk) (lt_irrefl i)
  | cons a t ih =>
    intro k hik hk
    unfold scanEq at hk
    by_cases hav : a = v
    · simp only [if_pos hav] at hk
      rcases Nat.eq_or_lt_of_le hik with rfl | hik'
      · simpa using hav
      · have := ih (i + 1) k hik' hk
        have hki : k - i = (k - (i + 1)) + 1 := by omega
        rw [hki, List.getD_cons_succ]
        exact this
    · simp only [if_neg hav] at hk
      exact absurd (hik.trans_lt hk) (lt_irrefl i)

lemma lt_plateauEnd (x : List ℚ) (l : ℕ) : l < plateauEnd x l :=
  Nat.lt_of_lt_of_le (Nat.lt_succ_self l) (scanEq_ge _ _ _)

lemma plateauEnd_le (x : List ℚ) {l : ℕ} (hl : l < x.length) :
    plateauEnd x l ≤ x.length := by
  have := scanEq_le (x.getD l 0) (x.drop (l + 1)) (l + 1)
  unfold plateauEnd
  rw [List.length_drop] at this
  omega

/-- Every index strictly inside a plateau carries the plateau's value. -/
lemma plateau_const {x : List ℚ} {l k : ℕ} (hl : l ≤ k) (hk : k < plateauEnd x l) :
    x.getD k 0 = x.getD l 0 := by
  rcases Nat.eq_or_lt_of_le hl with rfl | hlk
  · rfl
  · have h := scanEq_getD_eq (x.getD l 0) (x.drop (l + 1)) (l + 1) k hlk hk
    rw [List.getD_eq_getElem?_getD, List.getElem?_drop] at h
    have : l + 1 + (k - (l + 1)) = k := by omega
    rw [this] at h
    rw [List.getD_eq_getElem?_getD]
    exact h

lemma mem_localMaxima {x : List ℚ} {p : ℕ} (hp : p ∈ localMaxima x) :
    ∃ l, IsLeftEdge x l ∧ l < x.length ∧ p = (l + (plateauEnd x l - 1)) / 2 := by
  unfold localMaxima at hp
  obtain ⟨l, hl, hsome⟩ := List.mem_filterMap.mp hp
  by_cases hedge : IsLeftEdge x l
  · rw [if_pos hedge] at hsome
    exact ⟨l, hedge, List.mem_range.mp hl, (Option.some_inj.mp hsome).symm⟩
  · rw [if_neg hedge] at hsome
    cases hsome

lemma mem_heightFilter {x : List ℚ} {hmin : ℚ} {ps : List ℕ} {p : ℕ}
    (hp : p ∈ heightFilter x hmin ps) : p ∈ ps ∧ hmin ≤ x.getD p 0 := by
  have := List.mem_filter.mp hp
  exact ⟨this.1, of_decide_eq_true this.2⟩

lemma distanceFilter_subset {x : List ℚ} {d : ℕ} {ps : List ℕ} {p : ℕ}
    (hp : p ∈ distanceFilter x d ps) : p ∈ ps := by
  unfold distanceFilter at hp
  obtain ⟨⟨i, q⟩, hmem, rfl⟩ := List.mem_map.mp hp
  have henum := (List.mem_filter.mp hmem).1
  have h := List.mem_enumFrom (by simpa [List.enum] using henum)
  have hiq : q = ps[i - 0] := h.2.2
  have hlt : i - 0 < ps.length := by have := h.2.1; omega
  rw [hiq]
  exact List.getElem_mem hlt

/-- Decomposition of `find_peaks` membership: every returned peak is the
midpoint of a height-passing local-maximum plateau. -/
lemma mem_find_peaks {x : List ℚ} {hmin : ℚ} {d : ℕ} {p : ℕ}
    (hp : p ∈ find_peaks x hmin d) :
    ∃ l, IsLeftEdge x l ∧ l < x.length ∧ p = (l + (plateauEnd x l - 1)) / 2 ∧
      hmin ≤ x.getD p 0 := by
  unfold find_peaks at hp
  have h1 := mem_heightFilter (distanceFilter_subset hp)
  obtain ⟨l, hedge, hl, hmid⟩ := mem_localMaxima h1.1
  exact ⟨l, hedge, hl, hmid, h1.2⟩

/-- A `find_peaks` plateau midpoint lies inside its plateau, so it carries the
plateau's (positive) value and is a valid index of `x`. -/
lemma peak_midpoint_facts {x : List ℚ} {l : ℕ} (hedge : IsLeftEdge x l) :
    let p := (l + (plateauEnd x l - 1)) / 2
    l ≤ p ∧ p < plateauEnd x l ∧ p < x.length ∧ x.getD p 0 = x.getD l 0 := by
  obtain ⟨h1, h2, _h3, _h4⟩ := hedge
  have he := lt_plateauEnd x l
  intro p
  have hlp : l ≤ p := by omega
  have hpe : p < plateauEnd x l := by omega
  refine ⟨hlp, hpe, by omega, plateau_const hlp hpe⟩

/-! ## Helper lemmas: the sorting relations, highlight production -/

instance : IsTotal Highlight (fun a b => b.intensity ≤ a.intensity) :=
  ⟨fun a b => le_total b.intensity a.intensity⟩

instance : IsTrans Highlight (fun a b => b.intensity ≤ a.intensity) :=
  ⟨fun _ _ _ h1 h2 => le_trans h2 h1⟩

instance : IsTotal MixTrack (fun a b => trackKey b ≤ trackKey a) :=
  ⟨fun a b => le_total (trackKey b) (trackKey a)⟩

instance : IsTrans MixTrack (fun a b => trackKey b ≤ trackKey a) :=
  ⟨fun _ _ _ h1 h2 => le_trans h2 h1⟩

/-- Every highlight returned by a successful analysis comes from a
`find_peaks` peak of the smoothed raw RMS series. -/
lemma analyze_highlights_production {rms : List ℚ} {lenY sr : ℕ} {h : Highlight}
    (hmem : h ∈ (analyze_audio (some (rms, lenY, sr))).2) :
    ∃ p, p ∈ find_peaks (convSame rms) (mean (convSame rms) * (3 / 2)) (sr / hop_length * 5) ∧
      h = peakHighlight (convSame rms) ((lenY : ℚ) / sr) sr p := by
  by_cases h1 : rms.isEmpty
  · simp [analyze_audio, analyzeBody, h1] at hmem
  · by_cases h2 : sr / hop_length * 5 < 1
    · simp [analyze_audio, analyzeBody, h1, h2] at hmem
    · simp only [analyze_audio, analyzeBody, h1, Bool.false_eq_true, if_false, if_neg h2] at hmem
      have h3 := List.mem_of_mem_take hmem
      have h4 := (List.perm_insertionSort _ _).mem_iff.mp h3
      obtain ⟨p, hp, heq⟩ := List.mem_map.mp h4
      exact ⟨p, hp, heq.symm⟩

/-- The central index bound: with the height threshold `mean * 1.5` used by
`analyze_audio`, every peak returned by `find_peaks` on the smoothed series
is an index of a frame of the original RMS series (`p < rms.length`).
For `rms.length ≥ 10` this is immediate from the length of the `same`-mode
convolution.  For shorter series the convolution output is longer than the
input (length 10): there, a plateau's closing decrease can only occur once
the window has started losing entries (`convFull_decrease`), its opening
increase only while the window is still gaining entries (`convFull_increase`),
and the height threshold bounds the plateau length by 6 (a longer plateau of
the 10-entry series could not exceed `1.5 ×` its mean), which together pin
the midpoint below `rms.length`. -/
lemma find_peaks_lt_rms_length {rms : List ℚ} (hr : ∀ v ∈ rms, 0 ≤ v)
    {d p : ℕ}
    (hp : p ∈ find_peaks (convSame rms) (mean (convSame rms) * (3 / 2)) d) :
    p < rms.length := by
  obtain ⟨l, hedge, hl, hmid, hheight⟩ := mem_find_peaks hp
  obtain ⟨h1, h2, h3, h4⟩ := hedge
  have hee := lt_plateauEnd (convSame rms) l
  have hlen : (convSame rms).length = max rms.length 10 := convSame_length rms
  set M := rms.length with hM
  set x := convSame rms with hx
  set e := plateauEnd x l with he
  rcases le_or_lt 10 M with hM10 | hM10
  · -- long series: the smoothed series has exactly M entries
    have : max M 10 = M := by omega
    omega
  · -- short series: the smoothed series has 10 entries
    have hxlen : x.length = 10 := by omega
    have hminM : min M 10 = M := by omega
    have hM1 : 1 ≤ M := by
      by_contra hM0
      have : x.length = 10 := hxlen
      have hMz : M = 0 := by omega
      -- an all-out-of-range convolution is identically 0, no strict increase
      have hz : ∀ i, i < 10 → x.getD i 0 = 0 := by
        intro i hi
        rw [hx, convSame_getD (by omega)]
        unfold convFull isum
        have : min (i + (min M 10 - 1) / 2 + 1) M = 0 := by omega
        rw [this]
        simp [Finset.Ico_eq_empty_iff]
      have hl9 : l < 10 := by omega
      have hl19 : l - 1 < 10 := by omega
      rw [hz l hl9, hz (l - 1) hl19] at h3
      exact absurd h3 (lt_irrefl 0)
    set off := (M - 1) / 2 with hoff
    have hgetD : ∀ i, i < 10 → x.getD i 0 = convFull rms (i + off) := by
      intro i hi
      rw [hx, convSame_getD (by omega)]
      rw [hminM]
    have hl9 : l ≤ 8 := by omega
    have he9 : e ≤ 9 := by omega
    -- opening increase: the window is still gaining entries at l + off
    have hup : l + off < M := by
      have h3' := h3
      rw [hgetD (l - 1) (by omega), hgetD l (by omega)] at h3'
      have : (l - 1 + off) + 1 = l + off := by omega
      rw [← this] at h3'
      exact this ▸ convFull_increase hr h3'
    -- closing decrease: the window has started losing entries at e - 1 + off
    have hdown : 9 ≤ e - 1 + off := by
      have hplc : x.getD (e - 1) 0 = x.getD l 0 := plateau_const (by omega) (by omega)
      have h4' : x.getD e 0 < x.getD (e - 1) 0 := by rw [hplc]; exact h4
      rw [hgetD e (by omega), hgetD (e - 1) (by omega)] at h4'
      have : (e - 1 + off) + 1 = e + off := by omega
      rw [← this] at h4'
      exact convFull_decrease hr h4'
    -- the plateau value is positive
    have hxnn : ∀ v ∈ x, 0 ≤ v := convSame_nonneg hr
    have hP0 : 0 < x.getD l 0 :=
      lt_of_le_of_lt (getD_nonneg hxnn (l - 1)) h3
    -- `p` lies inside the plateau, so it carries the plateau value
    have hpl : l ≤ p := by omega
    have hpe : p < e := by omega
    have hpval : x.getD p 0 = x.getD l 0 := plateau_const hpl hpe
    -- height threshold bounds the plateau length by 6
    have hsum_ge : ((e - l : ℕ) : ℚ) * x.getD l 0 ≤ x.sum := by
      have hc : isum x l e = ((e - l : ℕ) : ℚ) * x.getD l 0 :=
        isum_const fun j hj1 hj2 => plateau_const hj1 hj2
      rw [← hc]
      exact isum_sub_interval hxnn (by omega)
    have hmean : mean x = x.sum / 10 := by
      rw [mean, hxlen]; norm_num
    have hheight' : x.sum / 10 * (3 / 2) ≤ x.getD l 0 := by
      rw [hmean, hpval] at hheight
      exact hheight
    have hsum_le : x.sum ≤ 20 / 3 * x.getD l 0 := by linarith
    have hn6 : e - l ≤ 6 := by
      have hmul : ((e - l : ℕ) : ℚ) * x.getD l 0 ≤ 20 / 3 * x.getD l 0 :=
        hsum_ge.trans hsum_le
      have h23 : ((e - l : ℕ) : ℚ) ≤ 20 / 3 := (mul_le_mul_right hP0).mp hmul
      have h3n : ((3 * (e - l) : ℕ) : ℚ) ≤ 20 := by push_cast; linarith
      have : 3 * (e - l) ≤ 20 := by exact_mod_cast h3n
      omega
    omega

/-- Every peak `find_peaks` returns on a non-negative series carries a
strictly positive value: its plateau strictly dominates the sample just left
of the plateau, which is `≥ 0`. -/
lemma find_peaks_value_pos {x : List ℚ} (hx : ∀ v ∈ x, 0 ≤ v) {hmin : ℚ}
    {d p : ℕ} (hp : p ∈ find_peaks x hmin d) : 0 < x.getD p 0 := by
  obtain ⟨l, hedge, _hl, hmid, _⟩ := mem_find_peaks hp
  obtain ⟨h1, _h2, h3, _h4⟩ := hedge
  have hee := lt_plateauEnd x l
  have hpv : x.getD p 0 = x.getD l 0 := plateau_const (by omega) (by omega)
  rw [hpv]
  exact lt_of_le_of_lt (getD_nonneg hx (l - 1)) h3

lemma convSame_getD_le_maxList {rms : List ℚ} (hr : ∀ v ∈ rms, 0 ≤ v) (p : ℕ) :
    (convSame rms).getD p 0 ≤ maxList rms := by
  rcases lt_or_le p (convSame rms).length with hp | hp
  · rw [convSame_length] at hp
    rw [convSame_getD hp]
    exact convFull_le_maxList hr _
  · rw [List.getD_eq_getElem?_getD, List.getElem?_eq_none hp]
    exact le_trans (le_refl 0) (maxList_nonneg rms)

lemma maxList_eq_zero {l : List ℚ} (h : ∀ v ∈ l, v = 0) : maxList l = 0 := by
  induction l with
  | nil => rfl
  | cons a t ih =>
    unfold maxList at *
    rw [List.foldr_cons, h a (List.mem_cons_self a t),
      ih fun v hv => h v (List.mem_cons_of_mem a hv)]
    exact max_self 0

lemma mean_pos {l : List ℚ} (hne : l ≠ []) (h : ∀ v ∈ l, 0 < v) : 0 < mean l := by
  unfold mean
  apply div_pos (List.sum_pos l h hne)
  have : 0 < l.length := List.length_pos.mpr hne
  exact_mod_cast this


/-! ## Claim theorems -/

unseal Rat.mul Rat.add Rat.sub Rat.inv in
/-- C1 (code bug): the claim — output duration = sum of the `n` contributing
excerpt durations minus `2 (n − 1)` s — fails on the code.  Two readable
tracks contribute 20 s excerpts each; the claim predicts `20 + 20 − 2 = 38` s
and the cursor variable indeed advances to 38 000 ms exactly as described, but
because `AudioSegment.overlay` never extends the buffer it is called on, the
exported duration is the first excerpt's 20 s. -/
theorem crossfade_duration_bug :
    segLen trkA = 20000 ∧ segLen trkB = 20000 ∧
    (mixLoop [trkA, trkB]).2 = 38000 ∧
    (create_mix endpoint_create_mix [trkA, trkB] true).duration = some 20 ∧
    (20 : ℚ) ≠ 20 + 20 - 2 * (2 - 1) := by decide

unseal Rat.mul Rat.add Rat.sub Rat.inv in
/-- C2 (code bug): with two tracks of which the first (after the intensity
sort) has an unreadable local path, the unreadable track is skipped and the
outcome is still `completed` — but the output buffer is empty (duration 0 s)
rather than containing the other track's 30 s contribution, because only the
excerpt at loop index 0 is ever appended (`final_mix += segment`) and the
skipped track occupies index 0; every later excerpt is overlaid into, and
truncated at the end of, the empty buffer. -/
theorem fault_isolation_bug :
    sortTracks [trkFall, trkBad] = [trkBad, trkFall] ∧
    segLen trkFall = 30000 ∧
    (create_mix endpoint_create_mix [trkFall, trkBad] true).status = .completed ∧
    (create_mix endpoint_create_mix [trkFall, trkBad] true).duration = some 0 := by decide

/-- C3 (counterexample): a Mix is never created in status `pending` — the
`/api/mixes` endpoint creates the record directly in `processing` (overriding
the model's `pending` default), after track retrieval has already run. -/
theorem mix_created_processing_counterexample :
    endpoint_create_mix.status = .processing ∧
    endpoint_create_mix.status ≠ mixModelDefaultStatus ∧
    mixStatusTrace [] true = [.processing, .completed] := by decide

/-- C3 (amended): every endpoint-created Mix starts in `processing` (not
`pending`; track retrieval happens before the record exists), terminates in
exactly one of `completed` (with a duration set) or `failed`, and its status
trace is exactly the one-directional `[processing, terminal]` — the Mix is
not mutated after reaching a terminal status. -/
theorem mix_lifecycle (ts : List MixTrack) (exportOk : Bool) :
    endpoint_create_mix.status = .processing ∧
    (mixStatusTrace ts exportOk = [.processing, .completed] ∨
      mixStatusTrace ts exportOk = [.processing, .failed]) ∧
    ((create_mix endpoint_create_mix ts exportOk).status = .completed →
      (create_mix endpoint_create_mix ts exportOk).duration.isSome = true) ∧
    (create_mix endpoint_create_mix ts exportOk).status ≠ .pending ∧
    (create_mix endpoint_create_mix ts exportOk).status ≠ .processing := by
  cases exportOk <;> simp [mixStatusTrace, create_mix, endpoint_create_mix]

set_option maxRecDepth 100000 in
set_option maxHeartbeats 1000000 in
unseal Rat.mul Rat.add Rat.sub Rat.inv in
/-- C4 (counterexample): the claim — intensity equals the value at the peak
frame of the smoothed *normalized* envelope, hence lies in `[0, 1]` — fails.
On `spikeRms` the single produced highlight peaks at frame 7
(`peak_time = 7 s` at `sr = 1024 = hop_length`, i.e. one frame per second)
with intensity 2 = the smoothed *raw* RMS value, while the smoothed
normalized envelope value at frame 7 is `1/10`, and `2 ∉ [0, 1]`. -/
theorem intensity_not_normalized_counterexample :
    (analyze_audio (some (spikeRms, 15360, 1024))).2 =
      [{ start := 0, stop := 15, peak_time := 7, intensity := 2 }] ∧
    frames_to_time 7 hop_length 1024 = 7 ∧
    (specSmoothedNormalizedEnvelope spikeRms).getD 7 0 = 1 / 10 ∧
    (2 : ℚ) ≠ (specSmoothedNormalizedEnvelope spikeRms).getD 7 0 ∧
    ¬ ((2 : ℚ) ≤ 1) := by decide

/-- C4 (amended): every produced Highlight's intensity is the value at its
peak frame of the moving-average smoothing of the *raw* (pre-normalization)
RMS series; it is strictly positive and bounded by the maximum raw RMS value,
but it is not in general the smoothed normalized envelope value and need not
lie in `[0, 1]`. -/
theorem intensity_from_raw_smoothing (rms : List ℚ) (lenY sr : ℕ)
    (hr : ∀ v ∈ rms, 0 ≤ v) :
    ∀ h ∈ (analyze_audio (some (rms, lenY, sr))).2,
      ∃ p, p ∈ find_peaks (convSame rms) (mean (convSame rms) * (3 / 2))
          (sr / hop_length * 5) ∧
        h.intensity = (convSame rms).getD p 0 ∧
        h.peak_time = frames_to_time p hop_length sr ∧
        0 < h.intensity ∧ h.intensity ≤ maxList rms := by
  intro h hmem
  obtain ⟨p, hp, rfl⟩ := analyze_highlights_production hmem
  refine ⟨p, hp, rfl, rfl, ?_, ?_⟩
  · exact find_peaks_value_pos (convSame_nonneg hr) hp
  · exact convSame_getD_le_maxList hr p

set_option maxRecDepth 100000 in
set_option maxHeartbeats 1000000 in
unseal Rat.mul Rat.add Rat.sub Rat.inv in
/-- C4 (witness for the amended theorem) at the highlight the analysis
produces on the concrete spiked RMS series. -/
theorem intensity_from_raw_smoothing_witness :
    ∃ p, p ∈ find_peaks (convSame spikeRms) (mean (convSame spikeRms) * (3 / 2))
        (1024 / hop_length * 5) ∧
      hlSpike.intensity = (convSame spikeRms).getD p 0 ∧
      hlSpike.peak_time = frames_to_time p hop_length 1024 ∧
      0 < hlSpike.intensity ∧ hlSpike.intensity ≤ maxList spikeRms :=
  intensity_from_raw_smoothing spikeRms 15360 1024 (by decide) hlSpike (by decide)

/-- C5: every produced Highlight is a window of nominal half-width 10 s
centered on its peak time and clamped to `[0, duration]`, so
`0 ≤ start ≤ peak_time ≤ end ≤ duration` and `end − start ≤ 20` s.
The hypotheses record what librosa guarantees about the inputs: RMS frame
values are non-negative, `librosa.feature.rms` (with its default
`center=True`) produces `1 + len(y) // hop_length` frames, and the native
sample rate is at least `hop_length` (true of every real audio rate; for
smaller rates `find_peaks` raises and no highlight is produced at all). -/
theorem highlight_bounds (rms : List ℚ) (lenY sr : ℕ)
    (hr : ∀ v ∈ rms, 0 ≤ v)
    (hframes : rms.length = 1 + lenY / hop_length)
    (hsr : hop_length ≤ sr) :
    ∀ h ∈ (analyze_audio (some (rms, lenY, sr))).2,
      h.start = max 0 (h.peak_time - 10) ∧
      h.stop = min ((lenY : ℚ) / sr) (h.peak_time + 10) ∧
      0 ≤ h.start ∧ h.start ≤ h.peak_time ∧ h.peak_time ≤ h.stop ∧
      h.stop ≤ (lenY : ℚ) / sr ∧ h.stop - h.start ≤ 20 := by
  intro h hmem
  obtain ⟨p, hp, rfl⟩ := analyze_highlights_production hmem
  have hplt := find_peaks_lt_rms_length hr hp
  have hsr0 : 0 < sr := lt_of_lt_of_le (by norm_num [hop_length]) hsr
  have hphop : p * hop_length ≤ lenY := by
    have hple : p ≤ lenY / hop_length := by omega
    calc p * hop_length ≤ lenY / hop_length * hop_length :=
          Nat.mul_le_mul_right _ hple
      _ ≤ lenY := Nat.div_mul_le_self _ _
  have ht0 : 0 ≤ frames_to_time p hop_length sr := by
    unfold frames_to_time
    positivity
  have htd : frames_to_time p hop_length sr ≤ (lenY : ℚ) / sr := by
    unfold frames_to_time
    apply div_le_div_of_nonneg_right ?_ ?_
    · exact_mod_cast hphop
    · positivity
  refine ⟨rfl, rfl, le_max_left _ _, ?_, ?_, min_le_left _ _, ?_⟩
  · show max 0 (frames_to_time p hop_length sr - 10) ≤ frames_to_time p hop_length sr
    exact max_le ht0 (by linarith)
  · show frames_to_time p hop_length sr ≤
      min ((lenY : ℚ) / sr) (frames_to_time p hop_length sr + 10)
    exact le_min htd (by linarith)
  · show min ((lenY : ℚ) / sr) (frames_to_time p hop_length sr + 10) -
      max 0 (frames_to_time p hop_length sr - 10) ≤ 20
    have hm1 : min ((lenY : ℚ) / sr) (frames_to_time p hop_length sr + 10) ≤
        frames_to_time p hop_length sr + 10 := min_le_right _ _
    have hm2 : frames_to_time p hop_length sr - 10 ≤
        max 0 (frames_to_time p hop_length sr - 10) := le_max_right _ _
    linarith

set_option maxRecDepth 100000 in
set_option maxHeartbeats 1000000 in
unseal Rat.mul Rat.add Rat.sub Rat.inv in
/-- C5 (witness): the highlight produced on the concrete spiked RMS series
(window `[0 s, 15 s]`, peak 7 s, duration 15 s) satisfies all the bounds. -/
theorem highlight_bounds_witness :
    hlSpike.start = max 0 (hlSpike.peak_time - 10) ∧
    hlSpike.stop = min (((15360 : ℕ) : ℚ) / ((1024 : ℕ) : ℚ)) (hlSpike.peak_time + 10) ∧
    0 ≤ hlSpike.start ∧ hlSpike.start ≤ hlSpike.peak_time ∧
    hlSpike.peak_time ≤ hlSpike.stop ∧
    hlSpike.stop ≤ ((15360 : ℕ) : ℚ) / ((1024 : ℕ) : ℚ) ∧
    hlSpike.stop - hlSpike.start ≤ 20 :=
  highlight_bounds spikeRms 15360 1024 (by decide) (by decide) (by decide) hlSpike
    (by decide)

/-- C6: the envelope produced at line 175 is normalized — whenever some RMS
frame value is nonzero (equivalently, some frame energy is nonzero, since a
frame's RMS vanishes exactly when its energy does), the maximum envelope
value is exactly 1; for an all-zero RMS series the envelope is the unchanged
all-zero sequence. -/
theorem envelope_normalized (rms : List ℚ) (lenY sr : ℕ)
    (hr : ∀ v ∈ rms, 0 ≤ v) (hne : rms ≠ []) (hsr : hop_length ≤ sr) :
    ((∃ v ∈ rms, v ≠ 0) → maxList (analyze_audio (some (rms, lenY, sr))).1 = 1) ∧
    ((∀ v ∈ rms, v = 0) →
      (analyze_audio (some (rms, lenY, sr))).1 = rms ∧
      ∀ v ∈ (analyze_audio (some (rms, lenY, sr))).1, v = 0) := by
  have h1 : rms.isEmpty = false := by
    simpa [List.isEmpty_iff] using hne
  have h2 : ¬ sr / hop_length * 5 < 1 := by
    have : 1 ≤ sr / hop_length := (Nat.one_le_div_iff (by norm_num [hop_length])).mpr hsr
    omega
  constructor
  · rintro ⟨v, hv, hvne⟩
    have hv0 : 0 < v := lt_of_le_of_ne (hr v hv) (Ne.symm hvne)
    have hmax : 0 < maxList rms := maxList_pos hv hv0
    simp only [analyze_audio, analyzeBody, h1, Bool.false_eq_true, if_false, if_neg h2,
      if_pos hmax]
    rw [maxList_map_div (le_of_lt hmax)]
    exact div_self (ne_of_gt hmax)
  · intro hz
    have hmax : maxList rms = 0 := maxList_eq_zero hz
    have hnot : ¬ 0 < maxList rms := by rw [hmax]; exact lt_irrefl 0
    simp only [analyze_audio, analyzeBody, h1, Bool.false_eq_true, if_false, if_neg h2,
      if_neg hnot]
    exact ⟨by trivial, hz⟩

/-- C6 (witness): on the spiked RMS series (a nonzero frame exists) the
normalized envelope has maximum exactly 1. -/
theorem envelope_normalized_witness :
    maxList (analyze_audio (some (spikeRms, 15360, 1024))).1 = 1 :=
  (envelope_normalized spikeRms 15360 1024 (by decide) (by decide) (by decide)).1
    ⟨20, by decide, by decide⟩

/-- C7: for every analyzed track — including the failure paths that return an
empty list — the highlight sequence is sorted by non-increasing intensity
and has length at most 3. -/
theorem highlights_sorted_capped (input : Option (List ℚ × ℕ × ℕ)) :
    (analyze_audio input).2.Sorted (fun a b => b.intensity ≤ a.intensity) ∧
      (analyze_audio input).2.length ≤ 3 := by
  match input with
  | none => simp [analyze_audio]
  | some (rms, lenY, sr) =>
    by_cases h1 : rms.isEmpty
    · simp [analyze_audio, analyzeBody, h1]
    · by_cases h2 : sr / hop_length * 5 < 1
      · simp [analyze_audio, analyzeBody, h1, h2]
      · simp only [analyze_audio, analyzeBody, h1, Bool.false_eq_true, if_false, if_neg h2]
        constructor
        · exact List.Pairwise.sublist (List.take_sublist _ _)
            (List.sorted_insertionSort _ _)
        · calc (List.take 3 _).length ≤ 3 := List.length_take_le _ _

/-- C8: a track with an empty highlight set and readable, decodable local
audio is not dropped by the assembler — its selected excerpt is the 30 000 ms
window centered on the midpoint `len(audio) // 2`, clamped to the track's
bounds (the whole track when it is shorter than 30 s), and the mixing step
processes it exactly like any other contributing track. -/
theorem fallback_excerpt (t : MixTrack) (hh : t.highlights = [])
    (hread : t.readable = true) (hdec : t.decode_ok = true) :
    (selectExcerpt t.audio_len t.highlights).1 = t.audio_len / 2 - 15000 ∧
    (selectExcerpt t.audio_len t.highlights).2 =
      min t.audio_len (t.audio_len / 2 + 15000) ∧
    segLen t = min t.audio_len 30000 ∧
    (30000 ≤ t.audio_len →
      (selectExcerpt t.audio_len t.highlights).1 + 15000 = t.audio_len / 2 ∧
      (selectExcerpt t.audio_len t.highlights).2 = t.audio_len / 2 + 15000) ∧
    (t.audio_len < 30000 →
      (selectExcerpt t.audio_len t.highlights).1 = 0 ∧
      (selectExcerpt t.audio_len t.highlights).2 = t.audio_len) ∧
    (∀ st : ℕ × ℤ, ∀ i : ℕ, mixStep st (i, t) =
      if i = 0 then (st.1 + segLen t, st.2 + segLen t)
      else (st.1, st.2 + segLen t - 2000)) := by
  have hsel : selectExcerpt t.audio_len t.highlights =
      (t.audio_len / 2 - 15000, min t.audio_len (t.audio_len / 2 + 15000)) := by
    rw [hh]
    rfl
  have hseg : segLen t = min t.audio_len 30000 := by
    unfold segLen
    rw [hsel]
    show min t.audio_len (t.audio_len / 2 + 15000) - (t.audio_len / 2 - 15000) = _
    omega
  refine ⟨by rw [hsel], by rw [hsel], hseg, ?_, ?_, ?_⟩
  · intro h30
    rw [hsel]
    exact ⟨by show t.audio_len / 2 - 15000 + 15000 = _; omega,
      by show min t.audio_len (t.audio_len / 2 + 15000) = _; omega⟩
  · intro h30
    rw [hsel]
    exact ⟨by show t.audio_len / 2 - 15000 = 0; omega,
      by show min t.audio_len (t.audio_len / 2 + 15000) = _; omega⟩
  · intro st i
    simp [mixStep, hread, hdec]

/-- C8 (witness): the concrete 60 s highlight-free track contributes the
excerpt `[15 000 ms, 45 000 ms)` of length 30 000 ms. -/
theorem fallback_excerpt_witness :
    (selectExcerpt trkFall.audio_len trkFall.highlights).1 =
      trkFall.audio_len / 2 - 15000 ∧
    (selectExcerpt trkFall.audio_len trkFall.highlights).2 =
      min trkFall.audio_len (trkFall.audio_len / 2 + 15000) ∧
    segLen trkFall = min trkFall.audio_len 30000 ∧
    (30000 ≤ trkFall.audio_len →
      (selectExcerpt trkFall.audio_len trkFall.highlights).1 + 15000 =
        trkFall.audio_len / 2 ∧
      (selectExcerpt trkFall.audio_len trkFall.highlights).2 =
        trkFall.audio_len / 2 + 15000) ∧
    (trkFall.audio_len < 30000 →
      (selectExcerpt trkFall.audio_len trkFall.highlights).1 = 0 ∧
      (selectExcerpt trkFall.audio_len trkFall.highlights).2 = trkFall.audio_len) ∧
    (∀ st : ℕ × ℤ, ∀ i : ℕ, mixStep st (i, trkFall) =
      if i = 0 then (st.1 + segLen trkFall, st.2 + segLen trkFall)
      else (st.1, st.2 + segLen trkFall - 2000)) :=
  fallback_excerpt trkFall (by decide) (by decide) (by decide)

/-- C9: when the analysis fails internally — the audio cannot be decoded, or
the body raises (e.g. `np.max` on the empty RMS of an empty signal, caught at
line 204) — no exception escapes `analyze_audio`, and the track's envelope
and highlight fields are set to `some []`: empty sequences, never `None`. -/
theorem analysis_failure_empty_fields (input : Option (List ℚ × ℕ × ℕ))
    (t : TrackFields)
    (hfail : input = none ∨ ∃ rms lenY sr, input = some (rms, lenY, sr) ∧
      analyzeBody rms lenY sr = .error ()) :
    (runAnalysis input t).waveform_data = some [] ∧
      (runAnalysis input t).highlights = some [] := by
  rcases hfail with rfl | ⟨rms, lenY, sr, rfl, herr⟩
  · simp [runAnalysis, analyze_audio]
  · simp [runAnalysis, analyze_audio, herr]

/-- C9 (witness): on an empty decoded signal (empty RMS series, where
`np.max` raises) both fields end as `some []`. -/
theorem analysis_failure_empty_fields_witness :
    (runAnalysis (some ([], 0, 22050)) ⟨none, none⟩).waveform_data = some [] ∧
      (runAnalysis (some ([], 0, 22050)) ⟨none, none⟩).highlights = some [] :=
  analysis_failure_empty_fields (some ([], 0, 22050)) ⟨none, none⟩
    (Or.inr ⟨[], 0, 22050, rfl, by rfl⟩)

/-- C10: every highlight produced by the analysis has strictly positive
intensity (a peak strictly dominates the non-negative sample left of its
plateau), and consequently the assembler's descending sort by mean highlight
intensity places every track with a non-empty highlight set (positive key)
before every track with an empty one (key 0): in the sorted list, whenever a
later track has highlights, so does every earlier one. -/
theorem positive_intensity_and_ordering (rms : List ℚ) (lenY sr : ℕ)
    (hr : ∀ v ∈ rms, 0 ≤ v) (ts : List MixTrack)
    (hts : ∀ t ∈ ts, ∀ h ∈ t.highlights, 0 < h.intensity) :
    (∀ h ∈ (analyze_audio (some (rms, lenY, sr))).2, 0 < h.intensity) ∧
    (sortTracks ts).Pairwise (fun a b => b.highlights ≠ [] → a.highlights ≠ []) := by
  constructor
  · intro h hmem
    obtain ⟨p, hp, rfl⟩ := analyze_highlights_production hmem
    simpa [peakHighlight] using find_peaks_value_pos (convSame_nonneg hr) hp
  · have hsorted := List.sorted_insertionSort
      (fun a b : MixTrack => trackKey b ≤ trackKey a) ts
    unfold sortTracks
    refine List.Pairwise.imp_of_mem ?_ hsorted
    intro a b _ha hb hkey hbne
    have hb' : b ∈ ts := ((List.perm_insertionSort _ _).mem_iff).mp hb
    have hkb : 0 < trackKey b := by
      unfold trackKey
      rw [if_neg (by simpa [List.isEmpty_iff] using hbne)]
      apply mean_pos
      · simpa using hbne
      · intro v hv
        obtain ⟨hgt, hmem2, rfl⟩ := List.mem_map.mp hv
        exact hts b hb' hgt hmem2
    have hka : 0 < trackKey a := lt_of_lt_of_le hkb hkey
    intro hae
    rw [trackKey, if_pos (by simp [hae])] at hka
    exact absurd hka (lt_irrefl 0)

/-- C10 (witness): on the spiked RMS series the produced highlight has
positive intensity, and sorting a concrete empty-highlight track together
with a positive-intensity track places the latter first. -/
theorem positive_intensity_and_ordering_witness :
    (∀ h ∈ (analyze_audio (some (spikeRms, 15360, 1024))).2, 0 < h.intensity) ∧
    (sortTracks [trkFall, trkA]).Pairwise
      (fun a b => b.highlights ≠ [] → a.highlights ≠ []) :=
  positive_intensity_and_ordering spikeRms 15360 1024 (by decide) [trkFall, trkA]
    (by decide)

end DJFX
